import Mathlib

/-!
A shallow embedding of the tiered batching and context-budgeting engine of
`analyze_repository_activity.py` (the GitFlow repository), together with
theorems settling the specification's claims about it.

Python strings are modelled as Lean `String` (a list of characters), Python
dictionaries keyed by commit SHA as functions `String → Option _`, the
insertion-ordered `defaultdict(list)` as an association list, and Python's
`//` floor division on non-negative integers as `Nat` division.
-/

namespace GitFlow

/-- Constant `TIER_1_THRESHOLD = 100000` from the source: below it a single LLM call. -/
def TIER_1_THRESHOLD : Nat := 100000

/-- Constant `TIER_2_THRESHOLD = 700000` from the source: below it split by day. -/
def TIER_2_THRESHOLD : Nat := 700000

/-- Constant `CHARS_PER_TOKEN = 3` from the source. -/
def CHARS_PER_TOKEN : Nat := 3

/-- Constant `MAX_FILE_DIFF_SIZE = 90000` from the source. -/
def MAX_FILE_DIFF_SIZE : Nat := 90000

/-- The `NON_CODE_EXTENSIONS` set from the source, as a list of strings. -/
def NON_CODE_EXTENSIONS : List String :=
  [".jpg", ".jpeg", ".png", ".gif", ".svg", ".webp", ".ico", ".bmp", ".tiff",
   ".mp4", ".avi", ".mov", ".wmv", ".flv", ".webm",
   ".mp3", ".wav", ".ogg", ".flac",
   ".zip", ".tar", ".gz", ".rar", ".7z", ".exe", ".dll", ".so", ".dylib",
   ".pdf", ".doc", ".docx", ".xls", ".xlsx", ".ppt", ".pptx",
   ".woff", ".woff2", ".ttf", ".eot", ".otf",
   ".lock"]

/-- A commit record: the fields of the commit dictionaries the script reads
(`sha`, `message`, `author`, `timestamp`).  An absent timestamp is modelled
as the empty string, exactly as `commit.get("timestamp", "")` yields it. -/
structure Commit where
  sha : String
  message : String
  author : String
  timestamp : String
deriving DecidableEq, Repr

/-- A file-change record: the five keys of the dictionaries built by
`fetch_commit_diff` (and of the raw GitHub `files` entries it reads). -/
structure FileChange where
  filename : String
  patch : String
  status : String
  additions : Nat
  deletions : Nat
deriving DecidableEq, Repr

/-- The `commit_diffs` dictionary: commit SHA to its processed file list. -/
abbrev DiffMap := String → Option (List FileChange)

/-- Python's `s[:n]` character slicing. -/
def pyTake (s : String) (n : Nat) : String := ⟨s.data.take n⟩

/-- Function `estimate_tokens(text) = len(text) // CHARS_PER_TOKEN` from the source. -/
def estimate_tokens (text : String) : Nat := text.length / CHARS_PER_TOKEN

/-- Python's `str.split(sep)` for a one-character separator, on the
code-point list of the string: always returns at least one (possibly
empty) segment. -/
def splitOnChar (c : Char) : List Char → List (List Char)
  | [] => [[]]
  | x :: xs =>
    if x = c then [] :: splitOnChar c xs
    else match splitOnChar c xs with
      | [] => [[x]]
      | seg :: rest => (x :: seg) :: rest

/-- Python's `str.lower()`, code-point-wise (the extensions compared are
ASCII, where this coincides with Python's case mapping). -/
def pyLower (s : String) : String := ⟨s.data.map Char.toLower⟩

/-- Function `is_non_code_file` from the source: the extension is a dot followed by
the lower-cased text after the final dot (`filename.split(".")[-1]`) when
the filename contains a dot, and the empty string otherwise; the file is
non-code when that extension is in `NON_CODE_EXTENSIONS`. -/
def is_non_code_file (filename : String) : Bool :=
  let ext := if filename.data.contains '.'
    then "." ++ pyLower ⟨(splitOnChar '.' filename.data).getLastD []⟩
    else ""
  NON_CODE_EXTENSIONS.contains ext

/-- The fixed marker `fetch_commit_diff` appends to an over-sized patch. -/
def DIFF_TRUNCATION_MARKER : String :=
  "\n\n[TRUNCATED: File diff exceeds size limit. The content above represents only the beginning of the changes. Analyze based on the visible portion.]"

/-- The per-file patch truncation of `fetch_commit_diff`: a patch longer
than `MAX_FILE_DIFF_SIZE` characters is cut to its first
`MAX_FILE_DIFF_SIZE` characters with `DIFF_TRUNCATION_MARKER` appended. -/
def truncatePatch (patch : String) : String :=
  if patch.length > MAX_FILE_DIFF_SIZE
    then pyTake patch MAX_FILE_DIFF_SIZE ++ DIFF_TRUNCATION_MARKER
    else patch

/-- The file-processing loop of `fetch_commit_diff` (lines 86-105), applied
to the parsed `files` list: skip non-code files, truncate large patches,
keep the remaining fields. -/
def processCommitFiles (files : List FileChange) : List FileChange :=
  files.filterMap (fun f =>
    if is_non_code_file f.filename then none
    else some ⟨f.filename, truncatePatch f.patch, f.status, f.additions, f.deletions⟩)

/-- The day key assigned to a commit by `group_commits_by_day`, relative to
an abstract ISO-8601 parser `fromiso` standing for
`datetime.fromisoformat(timestamp.replace("Z", "+00:00")).strftime("%Y-%m-%d")`
(`none` models the exception path).  An empty (absent) timestamp is falsy in
Python, and a parse failure is caught: both yield `"unknown"`. -/
def dayKeyOf (fromiso : String → Option String) (c : Commit) : String :=
  if c.timestamp = "" then "unknown"
  else match fromiso c.timestamp with
    | some day => day
    | none => "unknown"

/-- Appending to `by_day[day_key]` in an insertion-ordered
`defaultdict(list)` modelled as an association list. -/
def appendByDay (m : List (String × List Commit)) (k : String) (c : Commit) :
    List (String × List Commit) :=
  match m with
  | [] => [(k, [c])]
  | (k', cs) :: rest =>
    if k' = k then (k', cs ++ [c]) :: rest else (k', cs) :: appendByDay rest k c

/-- Function `group_commits_by_day` from the source, parametrised by the abstract
ISO-8601 day parser: one pass over the commits, filing each under its day
key (or `"unknown"`). -/
def group_commits_by_day (fromiso : String → Option String)
    (commits : List Commit) : List (String × List Commit) :=
  commits.foldl (fun m c => appendByDay m (dayKeyOf fromiso c) c) []

/-- Lookup `commits_by_day[day]`: the bucket for a day key (total, defaulting to
`[]`, though in the source every looked-up key is present). -/
def bucketOf (m : List (String × List Commit)) (k : String) : List Commit :=
  ((m.lookup k).getD [])

/-- Python truthiness of the optional `token_budget` argument: `None` and
`0` are falsy, every other integer is truthy. -/
def budgetTruthy : Option Nat → Bool
  | none => false
  | some b => b != 0

/-- The comparison `token_budget and (n > token_budget)` from the source:
false whenever the budget is falsy (`None` or `0`). -/
def budgetExceeded (token_budget : Option Nat) (n : Nat) : Bool :=
  match token_budget with
  | none => false
  | some b => if b = 0 then false else decide (n > b)

/-- The full per-file text of `build_commit_context`: filename, status, and
the patch fenced as a literal block when non-empty. -/
def renderFileText (f : FileChange) : String :=
  "File: " ++ f.filename ++ " (" ++ f.status ++ ")\n" ++
    (if f.patch ≠ "" then "```\n" ++ f.patch ++ "\n```\n" else "")

/-- The replacement text `build_commit_context` uses for a file whose block
would push the running total over the budget. -/
def budgetNotice (f : FileChange) : String :=
  "File: " ++ f.filename ++ " (" ++ f.status ++ ")\n[TRUNCATED: File diff omitted due to token budget constraints. This file was modified, but the full diff is not included. Analyze based on existing context.]\n"

/-- One iteration of the inner `for f in files` loop of
`build_commit_context`: compose the file block, and replace it with
`budgetNotice` when `total_tokens + file_tokens > token_budget` (with
Python truthiness on the budget).  `total_tokens` is the outer running
total, which does not move inside the file loop. -/
def fileTextWithBudget (token_budget : Option Nat) (total_tokens : Nat)
    (f : FileChange) : String :=
  let file_text := renderFileText f
  let file_tokens := estimate_tokens file_text
  if budgetExceeded token_budget (total_tokens + file_tokens)
    then budgetNotice f
    else file_text

/-- Function `get_file_size` from the source: the patch length (an empty patch is
falsy and scored 0, which coincides with its length). -/
def get_file_size (f : FileChange) : Nat := f.patch.length

/-- Stable insertion of a file into a list sorted by `get_file_size`
ascending, placing it after existing files of equal size. -/
def insertBySize (f : FileChange) : List FileChange → List FileChange
  | [] => [f]
  | g :: gs =>
    if get_file_size g ≤ get_file_size f
      then g :: insertBySize f gs
      else f :: g :: gs

/-- Python `sorted(files, key=get_file_size)`: a stable ascending sort by patch
length (Python's `sorted` is stable). -/
def sortFilesBySize (files : List FileChange) : List FileChange :=
  files.foldl (fun acc f => insertBySize f acc) []

/-- The commit header of `build_commit_context`: short SHA prefix, author,
date, and message. -/
def commitHeader (c : Commit) : String :=
  "Commit: " ++ pyTake c.sha 7 ++ "\nAuthor: " ++ c.author ++ "\nDate: " ++
    c.timestamp ++ "\nMessage: " ++ c.message ++ "\n"

/-- The `commit_text` composed for one commit by `build_commit_context`
given the running total so far: the header, then (when the SHA has diffs)
each file block appended in turn, the files first sorted smallest-first
when the budget is truthy. -/
def commitTextOf (commit_diffs : DiffMap) (token_budget : Option Nat)
    (total_tokens : Nat) (c : Commit) : String :=
  let base := commitHeader c
  match commit_diffs c.sha with
  | none => base
  | some files =>
    let files' := if budgetTruthy token_budget then sortFilesBySize files else files
    files'.foldl (fun acc f => acc ++ fileTextWithBudget token_budget total_tokens f) base

/-- The `parts` list built by the outer loop of `build_commit_context`:
compose each commit's text, stop (Python `break`) when appending it would
push the running total over a truthy budget, otherwise emit it and advance
the total by its estimated tokens. -/
def buildParts (commit_diffs : DiffMap) (token_budget : Option Nat) :
    List Commit → Nat → List String
  | [], _ => []
  | c :: rest, total_tokens =>
    let commit_text := commitTextOf commit_diffs token_budget total_tokens c
    let commit_tokens := estimate_tokens commit_text
    if budgetExceeded token_budget (total_tokens + commit_tokens) then []
    else commit_text :: buildParts commit_diffs token_budget rest (total_tokens + commit_tokens)

/-- Function `build_commit_context` from the source: the parts joined by the fixed
separator. -/
def build_commit_context (commits : List Commit) (commit_diffs : DiffMap)
    (token_budget : Option Nat) : String :=
  String.intercalate "\n---\n" (buildParts commit_diffs token_budget commits 0)

/-- A `(day, day_commits, day_tokens)` tuple as built by `process_repository`
for `process_small_days_batch` and the Tier-3 split. -/
structure DayEntry where
  day : String
  commits : List Commit
  tokens : Nat
deriving DecidableEq, Repr

/-- The loop of `process_small_days_batch`: flush the running batch when it
is non-empty and adding the day's tokens would push the accumulated size
over the threshold; then append the day's commits and add its size.  The
non-empty remaining batch is flushed after the pass. -/
def smallDaysLoop (batch_threshold : Nat) :
    List DayEntry → List Commit → Nat → List (List Commit)
  | [], current_batch, _ =>
    if current_batch.isEmpty then [] else [current_batch]
  | e :: rest, current_batch, current_tokens =>
    if ¬ current_batch.isEmpty ∧ current_tokens + e.tokens > batch_threshold then
      current_batch :: smallDaysLoop batch_threshold rest e.commits e.tokens
    else
      smallDaysLoop batch_threshold rest (current_batch ++ e.commits)
        (current_tokens + e.tokens)

/-- Function `process_small_days_batch` from the source, as the sequence of batches
it submits (each batch is one LLM call with no token budget). -/
def process_small_days_batch (small_days : List DayEntry)
    (batch_threshold : Nat) : List (List Commit) :=
  smallDaysLoop batch_threshold small_days [] 0

/-- One `process_batch_and_extend` invocation recorded abstractly: the
commit list handed to `build_commit_context` and the `token_budget` it and
the Summarizer call are given. -/
structure LlmCall where
  commits : List Commit
  token_budget : Option Nat
deriving DecidableEq, Repr

/-- Lexicographic `≤` on code-point lists: Python's string comparison. -/
def charListLe : List Char → List Char → Bool
  | [], _ => true
  | _ :: _, [] => false
  | a :: as, b :: bs => if a = b then charListLe as bs else decide (a < b)

/-- Python's string `≤`: lexicographic on code points. -/
def pyStrLe (s t : String) : Bool := charListLe s.data t.data

/-- Ascending insertion into a sorted list of day keys. -/
def insertKeySorted (k : String) : List String → List String
  | [] => [k]
  | x :: xs => if pyStrLe k x then k :: x :: xs else x :: insertKeySorted k xs

/-- Python `sorted(commits_by_day.keys())`: the day keys in ascending
lexicographic order (keys are pairwise distinct, so stability is moot). -/
def sortKeys : List String → List String
  | [] => []
  | x :: xs => insertKeySorted x (sortKeys xs)

/-- The `(day, day_commits, day_tokens)` entry `process_repository` builds
for a day key: the day's bucket and the estimated size of its own
unbudgeted context. -/
def dayEntryOf (commit_diffs : DiffMap) (commits_by_day : List (String × List Commit))
    (day : String) : DayEntry :=
  let day_commits := bucketOf commits_by_day day
  ⟨day, day_commits, estimate_tokens (build_commit_context day_commits commit_diffs none)⟩

/-- The `day_data` list of `process_repository`: one entry per sorted day
key. -/
def dayDataOf (commit_diffs : DiffMap) (commits_by_day : List (String × List Commit)) :
    List DayEntry :=
  (sortKeys (commits_by_day.map Prod.fst)).map (dayEntryOf commit_diffs commits_by_day)

/-- The Tier-3 pass that separates the sorted days into
`(large_days, small_days)` by whether each day's own estimated size exceeds
`TIER_1_THRESHOLD`. -/
def tier3SplitDays (commit_diffs : DiffMap)
    (commits_by_day : List (String × List Commit)) (sorted_days : List String) :
    List DayEntry × List DayEntry :=
  sorted_days.foldl (fun acc day =>
    let e := dayEntryOf commit_diffs commits_by_day day
    if e.tokens > TIER_1_THRESHOLD then (acc.1 ++ [e], acc.2)
    else (acc.1, acc.2 ++ [e])) ([], [])

/-- The Tier-3 loop over `large_days`: each day whose size exceeds
`TIER_1_THRESHOLD` gets one call with per-commit budget
`TIER_1_THRESHOLD // len(day_commits)`. -/
def largeDayCalls (large_days : List DayEntry) : List LlmCall :=
  large_days.foldl (fun acc e =>
    if e.tokens > TIER_1_THRESHOLD then
      acc ++ [⟨e.commits, some (TIER_1_THRESHOLD / e.commits.length)⟩]
    else acc) []

/-- Function `process_repository` from the source (lines 294-388), recorded as the
sequence of `process_batch_and_extend` invocations (commit batch plus
token budget) it makes; diff fetching and the Summarizer are external, so
the already-materialised `commit_diffs` map is a parameter and the
Summarizer calls are the observable output.  An empty commit list returns
early with no calls. -/
def process_repository_calls (fromiso : String → Option String)
    (commits : List Commit) (commit_diffs : DiffMap) : List LlmCall :=
  if commits.isEmpty then []
  else
    let total_tokens := estimate_tokens (build_commit_context commits commit_diffs none)
    if total_tokens < TIER_1_THRESHOLD then
      [⟨commits, none⟩]
    else if total_tokens < TIER_2_THRESHOLD then
      let commits_by_day := group_commits_by_day fromiso commits
      let day_data := dayDataOf commit_diffs commits_by_day
      (process_small_days_batch day_data 90000).map (fun b => ⟨b, none⟩)
    else
      let commits_by_day := group_commits_by_day fromiso commits
      let sorted_days := sortKeys (commits_by_day.map Prod.fst)
      let split := tier3SplitDays commit_diffs commits_by_day sorted_days
      largeDayCalls split.1 ++
        (process_small_days_batch split.2 90000).map (fun b => ⟨b, none⟩)

/-- One ChangeRecord of the Summarizer output. -/
structure Change where
  summary : String
  category : String
  contributing_commits : List String
deriving DecidableEq, Repr

/-- The per-repository output record `{"repository": ..., "changes": ...}`. -/
structure RepoAnalysis where
  repository : String
  changes : List Change
deriving DecidableEq, Repr

/-- The module-level repository loop (lines 408-430): for each
`(repo_path, activity_data)` item, try to process the repository and append
its analysis; any exception is caught at the repository boundary and the
loop appends `{"repository": repo_path, "changes": []}` instead and
continues.  `process` abstracts `process_repository` together with the
external calls that can raise. -/
def repositoryLoop {α : Type} (process : String → α → Except String RepoAnalysis)
    (items : List (String × α)) : List RepoAnalysis :=
  items.foldl (fun repository_analyses item =>
    match process item.1 item.2 with
    | Except.ok analysis => repository_analyses ++ [analysis]
    | Except.error _ => repository_analyses ++ [⟨item.1, []⟩]) []

/-! ### Helper lemmas -/

lemma processCommitFiles_eq_filter_map (files : List FileChange) :
    processCommitFiles files =
      (files.filter (fun f => ¬ is_non_code_file f.filename)).map
        (fun f => ⟨f.filename, truncatePatch f.patch, f.status, f.additions, f.deletions⟩) := by
  induction files with
  | nil => rfl
  | cons f fs ih =>
    by_cases h : is_non_code_file f.filename <;>
      simp [processCommitFiles, List.filterMap_cons, List.filter_cons, h] at ih ⊢ <;>
      exact ih

lemma is_non_code_file_no_dot (filename : String)
    (h : filename.data.contains '.' = false) : is_non_code_file filename = false := by
  unfold is_non_code_file
  rw [h]
  simp only [Bool.false_eq_true, if_false]
  decide

/-- C5. For every raw file-change list, normalization (the file loop of
`fetch_commit_diff`) is the truncating map over the files whose extension
is not in the non-code set: it never returns an entry for a filename whose
final lower-cased extension is in `NON_CODE_EXTENSIONS`, it returns an
entry (with `truncatePatch` applied) for every other filename in the
input, and a file whose name contains no dot is never non-code, hence
always kept. -/
theorem normalize_filters_non_code (files : List FileChange) :
    processCommitFiles files =
      (files.filter (fun f => ¬ is_non_code_file f.filename)).map
        (fun f => ⟨f.filename, truncatePatch f.patch, f.status, f.additions, f.deletions⟩) ∧
    (∀ g ∈ processCommitFiles files, is_non_code_file g.filename = false) ∧
    ((processCommitFiles files).map (fun g => g.filename) =
      (files.map (fun f => f.filename)).filter (fun n => ¬ is_non_code_file n)) ∧
    (∀ f ∈ files, f.filename.data.contains '.' = false →
      is_non_code_file f.filename = false ∧
      f.filename ∈ (processCommitFiles files).map (fun g => g.filename)) := by
  refine ⟨processCommitFiles_eq_filter_map files, ?_, ?_, ?_⟩
  · intro g hg
    rw [processCommitFiles_eq_filter_map] at hg
    obtain ⟨f, hf, rfl⟩ := List.mem_map.mp hg
    have := (List.mem_filter.mp hf).2
    simpa using this
  · rw [processCommitFiles_eq_filter_map, List.map_map]
    rw [List.filter_map]
    rfl
  · intro f hf hdot
    have hnc := is_non_code_file_no_dot f.filename hdot
    refine ⟨hnc, ?_⟩
    rw [processCommitFiles_eq_filter_map, List.map_map]
    refine List.mem_map.mpr ⟨f, List.mem_filter.mpr ⟨hf, by simp [hnc]⟩, rfl⟩

/-- A concrete file list exercising the normalizer. -/
def filesW : List FileChange :=
  [⟨"photo.png", "p", "added", 1, 0⟩,
   ⟨"app.py", "q", "modified", 1, 0⟩,
   ⟨"README", "r", "added", 2, 1⟩]

theorem normalize_filters_non_code_witness :
    is_non_code_file "README" = false ∧
    "README" ∈ (processCommitFiles filesW).map (fun g => g.filename) := by
  have h := (normalize_filters_non_code filesW).2.2.2
    ⟨"README", "r", "added", 2, 1⟩ (by decide) (by decide)
  exact h

/-- C6. For every retained file whose patch exceeds `MAX_FILE_DIFF_SIZE`
characters, the normalizer replaces the patch with exactly its first
`MAX_FILE_DIFF_SIZE` characters followed by `DIFF_TRUNCATION_MARKER`; the
resulting patch is exactly `MAX_FILE_DIFF_SIZE` characters plus the
marker, and a retained file's entry carries that truncated patch. -/
theorem patch_truncation_exact (patch : String)
    (h : patch.length > MAX_FILE_DIFF_SIZE) :
    truncatePatch patch = pyTake patch MAX_FILE_DIFF_SIZE ++ DIFF_TRUNCATION_MARKER ∧
    (pyTake patch MAX_FILE_DIFF_SIZE).length = MAX_FILE_DIFF_SIZE ∧
    (truncatePatch patch).length = MAX_FILE_DIFF_SIZE + DIFF_TRUNCATION_MARKER.length ∧
    (∀ f : FileChange, f.patch = patch → is_non_code_file f.filename = false →
      processCommitFiles [f] =
        [⟨f.filename, pyTake patch MAX_FILE_DIFF_SIZE ++ DIFF_TRUNCATION_MARKER,
          f.status, f.additions, f.deletions⟩]) := by
  have htr : truncatePatch patch = pyTake patch MAX_FILE_DIFF_SIZE ++ DIFF_TRUNCATION_MARKER := by
    unfold truncatePatch
    rw [if_pos h]
  have hlen : (pyTake patch MAX_FILE_DIFF_SIZE).length = MAX_FILE_DIFF_SIZE := by
    show (patch.data.take MAX_FILE_DIFF_SIZE).length = MAX_FILE_DIFF_SIZE
    rw [List.length_take]
    exact Nat.min_eq_left (Nat.le_of_lt h)
  refine ⟨htr, hlen, ?_, ?_⟩
  · rw [htr, String.length_append, hlen]
  · intro f hp hnc
    simp [processCommitFiles, List.filterMap_cons, hnc, hp, htr]

/-- A 95,000-character patch. -/
def patch95k : String := ⟨List.replicate 95000 'a'⟩

theorem patch_truncation_exact_witness :
    patch95k.length > MAX_FILE_DIFF_SIZE ∧
    (truncatePatch patch95k).length = MAX_FILE_DIFF_SIZE + DIFF_TRUNCATION_MARKER.length := by
  have h : patch95k.length > MAX_FILE_DIFF_SIZE := by
    show (List.replicate 95000 'a').length > MAX_FILE_DIFF_SIZE
    rw [List.length_replicate]
    decide
  exact ⟨h, (patch_truncation_exact patch95k h).2.2.1⟩

/-! ### ContextBuilder lemmas -/

lemma strMk_append (s : String) (x : List Char) :
    s ++ String.mk x = String.mk (s.data ++ x) := by
  cases s
  rfl

lemma strJoin_cons (s : String) (l : List String) :
    String.join (s :: l) = s ++ String.join l := by
  rw [String.join_eq, String.join_eq, strMk_append]
  rfl

lemma foldl_append_join {α : Type} (g : α → String) (l : List α) (s : String) :
    l.foldl (fun acc f => acc ++ g f) s = s ++ String.join (l.map g) := by
  induction l generalizing s with
  | nil => simp [String.join, String.append_empty]
  | cons a l ih =>
    rw [List.foldl_cons, ih, List.map_cons, strJoin_cons, String.append_assoc]

/-- The full (unbudgeted) `commit_text` of one commit: header, then each
file's full block in the file list's original order. -/
def fullCommitText (commit_diffs : DiffMap) (c : Commit) : String :=
  match commit_diffs c.sha with
  | none => commitHeader c
  | some files => commitHeader c ++ String.join (files.map renderFileText)

lemma fileTextWithBudget_none (total : Nat) (f : FileChange) :
    fileTextWithBudget none total f = renderFileText f := rfl

lemma commitTextOf_none (dm : DiffMap) (total : Nat) (c : Commit) :
    commitTextOf dm none total c = fullCommitText dm c := by
  unfold commitTextOf fullCommitText
  cases h : dm c.sha with
  | none => rfl
  | some files =>
    simp only [budgetTruthy, Bool.false_eq_true, if_false]
    have hg : (fun acc f => acc ++ fileTextWithBudget none total f) =
        (fun acc (f : FileChange) => acc ++ renderFileText f) := by
      funext acc f
      rw [fileTextWithBudget_none]
    rw [hg, foldl_append_join]

lemma commitTextOf_zero (dm : DiffMap) (total : Nat) (c : Commit) :
    commitTextOf dm (some 0) total c = commitTextOf dm none total c := by
  unfold commitTextOf
  cases h : dm c.sha with
  | none => rfl
  | some files => rfl

lemma buildParts_none (dm : DiffMap) (commits : List Commit) (total : Nat) :
    buildParts dm none commits total = commits.map (fullCommitText dm) := by
  induction commits generalizing total with
  | nil => rfl
  | cons c rest ih =>
    unfold buildParts
    simp only [budgetExceeded, Bool.false_eq_true, if_false]
    rw [commitTextOf_none, ih]
    rfl

lemma buildParts_zero (dm : DiffMap) (commits : List Commit) (total : Nat) :
    buildParts dm (some 0) commits total = buildParts dm none commits total := by
  induction commits generalizing total with
  | nil => rfl
  | cons c rest ih =>
    unfold buildParts
    rw [commitTextOf_zero]
    simp only [budgetExceeded, Bool.false_eq_true, if_false, reduceIte]
    rw [ih]

/-- C7. With no `token_budget`, `build_commit_context` emits every
commit's full rendered block exactly once, in input order, each with its
files in their original order and no truncation notices (`fullCommitText`
is by definition the header followed by the full file blocks in input
order): the parts list is exactly the map of `fullCommitText` over the
commit list, and the result is those blocks joined by the fixed
separator. -/
theorem build_no_budget_full_blocks (commits : List Commit) (dm : DiffMap) :
    buildParts dm none commits 0 = commits.map (fullCommitText dm) ∧
    build_commit_context commits dm none =
      String.intercalate "\n---\n" (commits.map (fullCommitText dm)) := by
  refine ⟨buildParts_none dm commits 0, ?_⟩
  unfold build_commit_context
  rw [buildParts_none]

/-- C2 (amended). `token_budget = 0` is falsy in Python (`if token_budget:`),
so `build_commit_context` with budget 0 behaves exactly as with no budget:
it returns the full context, not the empty string. -/
theorem build_zero_budget_ignored (commits : List Commit) (dm : DiffMap) :
    build_commit_context commits dm (some 0) = build_commit_context commits dm none := by
  unfold build_commit_context
  rw [buildParts_zero]

/-- A concrete commit used by witnesses and counterexamples. -/
def cA : Commit := ⟨"abc123456", "add feature", "alice", "2024-01-15T10:00:00Z"⟩

/-- C2 (counterexample). The claim "token_budget = 0 returns the empty
string" is false: with a single commit and no diffs, budget 0 yields the
commit's full block, a non-empty string. -/
theorem build_zero_budget_counterexample :
    build_commit_context [cA] (fun _ => none) (some 0) ≠ "" := by decide

lemma mem_insertBySize {g f : FileChange} {l : List FileChange} :
    g ∈ insertBySize f l ↔ g = f ∨ g ∈ l := by
  induction l with
  | nil => simp [insertBySize]
  | cons x xs ih =>
    unfold insertBySize
    split
    · simp only [List.mem_cons, ih]
      tauto
    · simp only [List.mem_cons]

lemma mem_sortFilesBySize {g : FileChange} {files : List FileChange} :
    g ∈ sortFilesBySize files ↔ g ∈ files := by
  have key : ∀ (l acc : List FileChange),
      (g ∈ l.foldl (fun acc f => insertBySize f acc) acc ↔ g ∈ acc ∨ g ∈ l) := by
    intro l
    induction l with
    | nil => simp
    | cons x xs ih =>
      intro acc
      rw [List.foldl_cons, ih, mem_insertBySize]
      simp
      tauto
  have h := key files []
  simpa [sortFilesBySize] using h

/-- C10. When the budget is truthy, the text composed for one commit is
the header followed by the size-sorted file blocks, where each file is
replaced by the budget notice exactly when `total + file_tokens` exceeds
the budget — `total` being the running total accumulated from previously
appended whole commits only (it does not move inside the file loop).
Consequently, if every file of the commit fits the remaining budget
individually, every file is rendered in full, regardless of their combined
size. -/
theorem budget_check_per_file_against_commit_total
    (dm : DiffMap) (tb : Option Nat) (total : Nat) (c : Commit)
    (files : List FileChange)
    (htb : budgetTruthy tb = true) (hdm : dm c.sha = some files) :
    commitTextOf dm tb total c =
      commitHeader c ++ String.join ((sortFilesBySize files).map
        (fun f => if budgetExceeded tb (total + estimate_tokens (renderFileText f))
          then budgetNotice f else renderFileText f)) ∧
    ((∀ f ∈ files, budgetExceeded tb (total + estimate_tokens (renderFileText f)) = false) →
      commitTextOf dm tb total c =
        commitHeader c ++ String.join ((sortFilesBySize files).map renderFileText)) := by
  have h1 : commitTextOf dm tb total c =
      commitHeader c ++ String.join ((sortFilesBySize files).map
        (fileTextWithBudget tb total)) := by
    unfold commitTextOf
    rw [hdm]
    simp only [htb, if_true]
    rw [foldl_append_join]
  have hfun : fileTextWithBudget tb total =
      (fun f => if budgetExceeded tb (total + estimate_tokens (renderFileText f))
        then budgetNotice f else renderFileText f) := by
    funext f
    rfl
  constructor
  · rw [h1, hfun]
  · intro hall
    rw [h1]
    congr 2
    apply List.map_congr_left
    intro f hf
    have hmem : f ∈ files := mem_sortFilesBySize.mp hf
    unfold fileTextWithBudget
    simp only [hall f hmem, Bool.false_eq_true, if_false]

/-- Two concrete files whose blocks each fit a budget of 20 tokens
individually but not together. -/
def fa : FileChange := ⟨"a.py", "0123456789", "modified", 1, 0⟩

def fb : FileChange := ⟨"b.py", "0123456789012345", "modified", 2, 0⟩

/-- The diff map handing `[fb, fa]` to every commit. -/
def dmW : DiffMap := fun _ => some [fb, fa]

theorem budget_check_per_file_witness :
    estimate_tokens (renderFileText fa) + estimate_tokens (renderFileText fb) > 20 ∧
    commitTextOf dmW (some 20) 0 cA =
      commitHeader cA ++ String.join ((sortFilesBySize [fb, fa]).map renderFileText) := by
  refine ⟨by decide, ?_⟩
  exact (budget_check_per_file_against_commit_total dmW (some 20) 0 cA [fb, fa]
    (by decide) rfl).2 (by decide)

/-! ### DayGrouper lemmas -/

lemma lookup_appendByDay (m : List (String × List Commit)) (k : String)
    (c : Commit) (k' : String) :
    (appendByDay m k c).lookup k' =
      if k' = k then some (((m.lookup k').getD []) ++ [c]) else m.lookup k' := by
  induction m with
  | nil =>
    by_cases h : k' = k
    · simp [appendByDay, List.lookup, h]
    · simp [appendByDay, List.lookup, h, beq_eq_false_iff_ne.mpr h]
  | cons p rest ih =>
    obtain ⟨k₀, cs⟩ := p
    by_cases h0 : k₀ = k
    · subst h0
      by_cases h : k' = k₀
      · simp [appendByDay, List.lookup, h]
      · simp [appendByDay, List.lookup, h, beq_eq_false_iff_ne.mpr h]
    · by_cases h : k' = k₀
      · subst h
        simp [appendByDay, List.lookup, h0, beq_eq_false_iff_ne.mpr h0]
      · simp [appendByDay, List.lookup, h0, h, ih,
          beq_eq_false_iff_ne.mpr h, beq_eq_false_iff_ne.mpr h0]

lemma bucketOf_appendByDay (m : List (String × List Commit)) (k : String)
    (c : Commit) (k' : String) :
    bucketOf (appendByDay m k c) k' =
      if k' = k then bucketOf m k' ++ [c] else bucketOf m k' := by
  unfold bucketOf
  rw [lookup_appendByDay]
  by_cases h : k' = k <;> simp [h]

lemma group_loop_bucket (fromiso : String → Option String) (commits : List Commit)
    (m : List (String × List Commit)) (k : String) :
    bucketOf (commits.foldl (fun m c => appendByDay m (dayKeyOf fromiso c) c) m) k =
      bucketOf m k ++ commits.filter (fun c => dayKeyOf fromiso c == k) := by
  induction commits generalizing m with
  | nil => simp
  | cons c cs ih =>
    rw [List.foldl_cons, ih, bucketOf_appendByDay, List.filter_cons]
    by_cases h : dayKeyOf fromiso c = k
    · rw [if_pos h.symm, if_pos (by simp [h])]
      simp
    · rw [if_neg (fun e => h e.symm), if_neg (by simp [h])]

lemma group_bucket (fromiso : String → Option String) (commits : List Commit)
    (k : String) :
    bucketOf (group_commits_by_day fromiso commits) k =
      commits.filter (fun c => dayKeyOf fromiso c == k) := by
  have h := group_loop_bucket fromiso commits [] k
  simpa [group_commits_by_day, bucketOf] using h

lemma flatten_appendByDay (m : List (String × List Commit)) (k : String) (c : Commit) :
    ((appendByDay m k c).map Prod.snd).flatten.Perm
      ((m.map Prod.snd).flatten ++ [c]) := by
  induction m with
  | nil => simp [appendByDay]
  | cons p rest ih =>
    obtain ⟨k₀, cs⟩ := p
    by_cases h : k₀ = k
    · simp only [appendByDay, if_pos h, List.map_cons, List.flatten_cons]
      have e1 : (cs ++ [c]) ++ (rest.map Prod.snd).flatten =
          cs ++ ([c] ++ (rest.map Prod.snd).flatten) := by
        rw [List.append_assoc]
      have e2 : (cs ++ (rest.map Prod.snd).flatten) ++ [c] =
          cs ++ ((rest.map Prod.snd).flatten ++ [c]) := by
        rw [List.append_assoc]
      rw [e1, e2]
      exact List.Perm.append_left cs (List.perm_append_comm)
    · simp only [appendByDay, if_neg h, List.map_cons, List.flatten_cons]
      rw [List.append_assoc]
      exact List.Perm.append_left cs ih

lemma group_loop_perm (fromiso : String → Option String) (commits : List Commit)
    (m : List (String × List Commit)) :
    ((commits.foldl (fun m c => appendByDay m (dayKeyOf fromiso c) c) m).map
      Prod.snd).flatten.Perm ((m.map Prod.snd).flatten ++ commits) := by
  induction commits generalizing m with
  | nil => simp
  | cons c cs ih =>
    rw [List.foldl_cons]
    refine (ih _).trans ?_
    have h1 := (flatten_appendByDay m (dayKeyOf fromiso c) c).append_right cs
    refine h1.trans ?_
    rw [List.append_assoc, List.singleton_append]

lemma group_perm (fromiso : String → Option String) (commits : List Commit) :
    ((group_commits_by_day fromiso commits).map Prod.snd).flatten.Perm commits := by
  have h := group_loop_perm fromiso commits []
  simpa [group_commits_by_day] using h

lemma dayKeyOf_unknown (fromiso : String → Option String) (c : Commit)
    (h : c.timestamp = "" ∨ fromiso c.timestamp = none) :
    dayKeyOf fromiso c = "unknown" := by
  unfold dayKeyOf
  by_cases ht : c.timestamp = ""
  · rw [if_pos ht]
  · rw [if_neg ht]
    rcases h with h | h
    · exact absurd h ht
    · rw [h]

/-- C4. `group_commits_by_day` is total (the empty list yields the empty
mapping), every bucket is exactly the input filtered to the commits with
that day key (so within-bucket order equals input order), the
concatenation of all buckets is a permutation of the input (each commit
appears exactly once), and any commit whose timestamp is absent (empty)
or fails to parse is filed under the sentinel key `"unknown"`. -/
theorem group_by_day_partition (fromiso : String → Option String)
    (commits : List Commit) :
    group_commits_by_day fromiso [] = [] ∧
    (∀ k, bucketOf (group_commits_by_day fromiso commits) k =
      commits.filter (fun c => dayKeyOf fromiso c == k)) ∧
    ((group_commits_by_day fromiso commits).map Prod.snd).flatten.Perm commits ∧
    (∀ c ∈ commits, c.timestamp = "" ∨ fromiso c.timestamp = none →
      c ∈ bucketOf (group_commits_by_day fromiso commits) "unknown") := by
  refine ⟨rfl, group_bucket fromiso commits, group_perm fromiso commits, ?_⟩
  intro c hc hbad
  rw [group_bucket]
  refine List.mem_filter.mpr ⟨hc, ?_⟩
  simp [dayKeyOf_unknown fromiso c hbad]

/-- A commit with an unparseable timestamp. -/
def cB : Commit := ⟨"def789012", "fix bug", "bob", "bad-timestamp"⟩

/-- A commit with an absent timestamp. -/
def cC : Commit := ⟨"0123aaa", "docs", "carol", ""⟩

theorem group_by_day_partition_witness :
    cB ∈ bucketOf (group_commits_by_day (fun _ => none) [cA, cB, cC]) "unknown" ∧
    cC ∈ bucketOf (group_commits_by_day (fun _ => none) [cA, cB, cC]) "unknown" := by
  have h := (group_by_day_partition (fun _ => none) [cA, cB, cC]).2.2.2
  exact ⟨h cB (by decide) (Or.inr rfl), h cC (by decide) (Or.inl rfl)⟩

/-! ### BatchPacker -/

/-- C1 (amended). Three day-buckets of estimated size 60,000 each with
batch threshold 90,000 produce exactly THREE batches, one day each: the
accumulated size resets to 0 at every flush, so after flushing day1 the
running batch holds only day2 (60,000), and adding day3 (120,000) again
exceeds 90,000, forcing a second flush before day3. -/
theorem batchPacker_three_60k_days (d1 d2 d3 : String) (cs1 cs2 cs3 : List Commit)
    (h1 : cs1 ≠ []) (h2 : cs2 ≠ []) (h3 : cs3 ≠ []) :
    process_small_days_batch
      [⟨d1, cs1, 60000⟩, ⟨d2, cs2, 60000⟩, ⟨d3, cs3, 60000⟩] 90000 =
      [cs1, cs2, cs3] := by
  unfold process_small_days_batch
  simp only [smallDaysLoop, List.isEmpty_nil, List.nil_append, Nat.zero_add]
  norm_num [List.isEmpty_iff, h1, h2, h3]

/-- C1 (counterexample). The claim "2 batches, day1 alone then day2+day3"
is false on the code: with three singleton days of size 60,000 and
threshold 90,000 the packer emits 3 batches, each holding one day. -/
theorem batchPacker_counterexample :
    (process_small_days_batch
      [⟨"2024-01-01", [cA], 60000⟩, ⟨"2024-01-02", [cB], 60000⟩,
       ⟨"2024-01-03", [cC], 60000⟩] 90000).length = 3 ∧
    process_small_days_batch
      [⟨"2024-01-01", [cA], 60000⟩, ⟨"2024-01-02", [cB], 60000⟩,
       ⟨"2024-01-03", [cC], 60000⟩] 90000 = [[cA], [cB], [cC]] := by decide

theorem batchPacker_three_60k_days_witness :
    process_small_days_batch
      [⟨"2024-01-04", [cA], 60000⟩, ⟨"2024-01-05", [cB], 60000⟩,
       ⟨"2024-01-06", [cC], 60000⟩] 90000 = [[cA], [cB], [cC]] :=
  batchPacker_three_60k_days "2024-01-04" "2024-01-05" "2024-01-06"
    [cA] [cB] [cC] (by decide) (by decide) (by decide)

/-! ### Tier 3 lemmas -/

lemma tier3SplitDays_loop (dm : DiffMap) (byDay : List (String × List Commit))
    (l : List String) (accL accS : List DayEntry) :
    l.foldl (fun acc day =>
      let e := dayEntryOf dm byDay day
      if e.tokens > TIER_1_THRESHOLD then (acc.1 ++ [e], acc.2)
      else (acc.1, acc.2 ++ [e])) (accL, accS) =
      (accL ++ (l.map (dayEntryOf dm byDay)).filter
        (fun e => decide (e.tokens > TIER_1_THRESHOLD)),
       accS ++ (l.map (dayEntryOf dm byDay)).filter
        (fun e => ! decide (e.tokens > TIER_1_THRESHOLD))) := by
  induction l generalizing accL accS with
  | nil => simp
  | cons day rest ih =>
    rw [List.foldl_cons]
    by_cases h : (dayEntryOf dm byDay day).tokens > TIER_1_THRESHOLD
    · simp only [if_pos h]
      rw [ih]
      simp [List.filter_cons, h, List.append_assoc]
    · simp only [if_neg h]
      rw [ih]
      simp [List.filter_cons, h, List.append_assoc]

lemma tier3SplitDays_eq (dm : DiffMap) (byDay : List (String × List Commit))
    (sorted_days : List String) :
    tier3SplitDays dm byDay sorted_days =
      ((sorted_days.map (dayEntryOf dm byDay)).filter
        (fun e => decide (e.tokens > TIER_1_THRESHOLD)),
       (sorted_days.map (dayEntryOf dm byDay)).filter
        (fun e => ! decide (e.tokens > TIER_1_THRESHOLD))) := by
  unfold tier3SplitDays
  have h := tier3SplitDays_loop dm byDay sorted_days [] []
  simpa using h

lemma largeDayCalls_loop (l : List DayEntry) (acc : List LlmCall) :
    l.foldl (fun acc e =>
      if e.tokens > TIER_1_THRESHOLD then
        acc ++ [⟨e.commits, some (TIER_1_THRESHOLD / e.commits.length)⟩]
      else acc) acc =
      acc ++ (l.filter (fun e => decide (e.tokens > TIER_1_THRESHOLD))).map
        (fun e => ⟨e.commits, some (TIER_1_THRESHOLD / e.commits.length)⟩) := by
  induction l generalizing acc with
  | nil => simp
  | cons e rest ih =>
    rw [List.foldl_cons]
    by_cases h : e.tokens > TIER_1_THRESHOLD
    · rw [if_pos h, ih]
      simp [List.filter_cons, h, List.append_assoc]
    · rw [if_neg h, ih]
      simp [List.filter_cons, h]

/-- C8. In the Tier-3 split, the large side consists exactly of the days
whose own estimated size exceeds `TIER_1_THRESHOLD`; the large-day loop
makes exactly one call per large day, with per-commit token budget
`TIER_1_THRESHOLD / (number of commits in that day)` (integer division);
and in particular a day of 150,000 estimated tokens with 10 commits yields
exactly one call with `token_budget = 10000`. -/
theorem tier3_large_day_budget (dm : DiffMap) (byDay : List (String × List Commit))
    (sorted_days : List String) :
    (tier3SplitDays dm byDay sorted_days).1 =
      (sorted_days.map (dayEntryOf dm byDay)).filter
        (fun e => decide (e.tokens > TIER_1_THRESHOLD)) ∧
    largeDayCalls (tier3SplitDays dm byDay sorted_days).1 =
      ((tier3SplitDays dm byDay sorted_days).1).map
        (fun e => ⟨e.commits, some (TIER_1_THRESHOLD / e.commits.length)⟩) ∧
    (∀ day cs, cs.length = 10 →
      largeDayCalls [⟨day, cs, 150000⟩] = [⟨cs, some 10000⟩]) := by
  have h1 := tier3SplitDays_eq dm byDay sorted_days
  refine ⟨by rw [h1], ?_, ?_⟩
  · unfold largeDayCalls
    rw [largeDayCalls_loop, List.nil_append, h1]
    simp [List.filter_filter]
  · intro day cs h
    unfold largeDayCalls
    rw [List.foldl_cons]
    have ht : (DayEntry.mk day cs 150000).tokens > TIER_1_THRESHOLD := by
      norm_num [TIER_1_THRESHOLD]
    rw [if_pos ht, List.foldl_nil, List.nil_append, h]
    norm_num [TIER_1_THRESHOLD]

theorem tier3_large_day_budget_witness :
    (List.replicate 10 cA).length = 10 ∧
    largeDayCalls [⟨"2024-01-01", List.replicate 10 cA, 150000⟩] =
      [⟨List.replicate 10 cA, some 10000⟩] :=
  ⟨List.length_replicate 10 cA,
   (tier3_large_day_budget (fun _ => none) [] []).2.2 "2024-01-01"
     (List.replicate 10 cA) (List.length_replicate 10 cA)⟩

/-! ### Tier selection -/

/-- C3 (amended: for a NON-EMPTY commit list). Tier selection is a total
three-way partition on the estimated size `T` of the unbudgeted
whole-repository blob: `T < 100000` yields exactly one call carrying the
whole commit set with no budget (and the blob's parts contain every input
commit's full block); `100000 ≤ T < 700000` yields one call per packed
batch of the day data; `700000 ≤ T` runs the hybrid tier (large-day calls
followed by the packed small days). -/
theorem tier_selection_partition (fromiso : String → Option String)
    (commits : List Commit) (dm : DiffMap) (hne : commits ≠ []) :
    (estimate_tokens (build_commit_context commits dm none) < TIER_1_THRESHOLD →
      process_repository_calls fromiso commits dm = [⟨commits, none⟩] ∧
      ∀ c ∈ commits, fullCommitText dm c ∈ buildParts dm none commits 0) ∧
    (TIER_1_THRESHOLD ≤ estimate_tokens (build_commit_context commits dm none) →
      estimate_tokens (build_commit_context commits dm none) < TIER_2_THRESHOLD →
      process_repository_calls fromiso commits dm =
        (process_small_days_batch
          (dayDataOf dm (group_commits_by_day fromiso commits)) 90000).map
          (fun b => ⟨b, none⟩)) ∧
    (TIER_2_THRESHOLD ≤ estimate_tokens (build_commit_context commits dm none) →
      process_repository_calls fromiso commits dm =
        largeDayCalls (tier3SplitDays dm (group_commits_by_day fromiso commits)
          (sortKeys ((group_commits_by_day fromiso commits).map Prod.fst))).1 ++
        (process_small_days_batch
          (tier3SplitDays dm (group_commits_by_day fromiso commits)
            (sortKeys ((group_commits_by_day fromiso commits).map Prod.fst))).2
          90000).map (fun b => ⟨b, none⟩)) := by
  have hie : commits.isEmpty = false := by
    cases commits with
    | nil => exact absurd rfl hne
    | cons c cs => rfl
  refine ⟨?_, ?_, ?_⟩
  · intro hT
    refine ⟨?_, ?_⟩
    · unfold process_repository_calls
      simp only [hie, Bool.false_eq_true, if_false]
      rw [if_pos hT]
    · intro c hc
      rw [buildParts_none]
      exact List.mem_map_of_mem (fullCommitText dm) hc
  · intro hT1 hT2
    unfold process_repository_calls
    simp only [hie, Bool.false_eq_true, if_false]
    rw [if_neg (Nat.not_lt.mpr hT1), if_pos hT2]
  · intro hT2
    have hT1 : TIER_1_THRESHOLD ≤ estimate_tokens (build_commit_context commits dm none) :=
      le_trans (by norm_num [TIER_1_THRESHOLD, TIER_2_THRESHOLD]) hT2
    unfold process_repository_calls
    simp only [hie, Bool.false_eq_true, if_false]
    rw [if_neg (Nat.not_lt.mpr hT1), if_neg (Nat.not_lt.mpr hT2)]

theorem tier_selection_partition_witness :
    process_repository_calls (fun _ => none) [cA] (fun _ => none) = [⟨[cA], none⟩] :=
  ((tier_selection_partition (fun _ => none) [cA] (fun _ => none)
    (by decide)).1 (by decide)).1

/-- C3 (counterexample). With an empty commit list the estimated size of
the whole-repository blob is below the Tier-1 threshold, yet the code
returns early and makes ZERO Summarizer calls, not exactly one. -/
theorem tier_selection_empty_counterexample :
    estimate_tokens (build_commit_context [] (fun _ => none) none) < TIER_1_THRESHOLD ∧
    process_repository_calls (fun _ => none) [] (fun _ => none) = [] := by decide

/-! ### Repository loop -/

/-- C9. The module-level repository loop yields exactly one result per
input repository, in input iteration order: a repository whose processing
raises is surfaced as `{"repository": id, "changes": []}` for that
repository only, and every other repository still contributes its own
result. -/
theorem repository_loop_error_containment {α : Type}
    (process : String → α → Except String RepoAnalysis)
    (items : List (String × α)) :
    repositoryLoop process items = items.map (fun item =>
      match process item.1 item.2 with
      | Except.ok analysis => analysis
      | Except.error _ => ⟨item.1, []⟩) ∧
    (repositoryLoop process items).length = items.length := by
  have key : ∀ (l : List (String × α)) (acc : List RepoAnalysis),
      l.foldl (fun repository_analyses item =>
        match process item.1 item.2 with
        | Except.ok analysis => repository_analyses ++ [analysis]
        | Except.error _ => repository_analyses ++ [⟨item.1, []⟩]) acc =
      acc ++ l.map (fun item =>
        match process item.1 item.2 with
        | Except.ok analysis => analysis
        | Except.error _ => ⟨item.1, []⟩) := by
    intro l
    induction l with
    | nil =>
      intro acc
      simp
    | cons x xs ih =>
      intro acc
      rw [List.foldl_cons]
      cases hx : process x.1 x.2 with
      | ok a =>
        simp only [hx]
        rw [ih]
        simp [List.append_assoc, hx]
      | error e =>
        simp only [hx]
        rw [ih]
        simp [List.append_assoc, hx]
  have h := key items []
  constructor
  · unfold repositoryLoop
    simpa using h
  · unfold repositoryLoop
    rw [h]
    simp

end GitFlow
